import Mathlib

/-!
Verification development for the CABINET-OFC synchronized-storage code:
the client hooks `useSyncedStorage` / `useSyncedSettings`
(src/lib/use-synced-storage.ts) and the `/data` API route handlers
(GET / POST / PUT / DELETE).

The embedding models JavaScript JSON values as an inductive type `Json`
(numbers restricted to integers: IEEE-754 float printing is outside the
embedding), `JSON.stringify` as `Json.stringify`, and `JSON.parse` as a
fuel-indexed recursive-descent parser `jsonParse` over the grammar that
`stringify` emits (no insignificant whitespace).  The hook's timer /
debounce behaviour is modelled as a small labelled transition system on a
per-binding state record, with events for a `setValue` call, the debounce
timer firing, and teardown.
-/

namespace CabinetOfc

mutual
/-- JavaScript JSON values (numbers restricted to integers). Mutual with
explicit list/object spines so that structural mutual recursion and
induction are available. -/
inductive Json where
  | null : Json
  | bool : Bool → Json
  | num : Int → Json
  | str : List Char → Json
  | arr : JsonList → Json
  | obj : JsonObj → Json
  deriving DecidableEq, Repr

inductive JsonList where
  | nil : JsonList
  | cons : Json → JsonList → JsonList
  deriving DecidableEq, Repr

inductive JsonObj where
  | onil : JsonObj
  | ocons : List Char → Json → JsonObj → JsonObj
  deriving DecidableEq, Repr
end

/-- Lowercase hex digit for `n < 16`, as emitted by JS in \u escapes. -/
def hexDigit (n : Nat) : Char :=
  if n < 10 then Char.ofNat (48 + n) else Char.ofNat (87 + n)

/-- How `JSON.stringify` escapes one character inside a string literal:
quote and backslash get escaped, the named control escapes b t n f r are
used, all other control characters (code < 32) become \u00XX, and every
other character is emitted verbatim. -/
def escapeChar (c : Char) : List Char :=
  if c = '"' then ['\\', '"']
  else if c = '\\' then ['\\', '\\']
  else if c = Char.ofNat 8 then ['\\', 'b']
  else if c = '\t' then ['\\', 't']
  else if c = '\n' then ['\\', 'n']
  else if c = Char.ofNat 12 then ['\\', 'f']
  else if c = '\r' then ['\\', 'r']
  else if c.toNat < 32 then
    ['\\', 'u', '0', '0', hexDigit (c.toNat / 16), hexDigit (c.toNat % 16)]
  else [c]

/-- Escape a whole string body (concatenation of per-character escapes). -/
def escList : List Char → List Char
  | [] => []
  | c :: cs => escapeChar c ++ escList cs

/-- Decimal digits of a natural number, most significant first (fuel-indexed
so the recursion is structural; `natDigits` supplies enough fuel). -/
def natDigitsGo : Nat → Nat → List Char → List Char
  | 0, _, acc => acc
  | fuel + 1, n, acc =>
    if n < 10 then Char.ofNat (48 + n) :: acc
    else natDigitsGo fuel (n / 10) (Char.ofNat (48 + n % 10) :: acc)

def natDigits (n : Nat) : List Char := natDigitsGo (n + 1) n []

/-- Decimal rendering of an integer (the form `JSON.stringify` prints for
integral JS numbers). -/
def intChars (n : Int) : List Char :=
  if n < 0 then '-' :: natDigits n.natAbs else natDigits n.natAbs

mutual
/-- `JSON.stringify` on the modelled value domain. -/
def Json.stringify : Json → List Char
  | .null => 'n' :: 'u' :: 'l' :: 'l' :: []
  | .bool true => 't' :: 'r' :: 'u' :: 'e' :: []
  | .bool false => 'f' :: 'a' :: 'l' :: 's' :: 'e' :: []
  | .num n => intChars n
  | .str s => '"' :: (escList s ++ ['"'])
  | .arr a => '[' :: (JsonList.stringifyItems a ++ [']'])
  | .obj o => '{' :: (JsonObj.stringifyItems o ++ ['}'])

/-- Comma-separated rendering of array elements (no brackets). -/
def JsonList.stringifyItems : JsonList → List Char
  | .nil => []
  | .cons v rest => Json.stringify v ++ JsonList.stringifySep rest

/-- The `, elem` continuation of an array rendering. -/
def JsonList.stringifySep : JsonList → List Char
  | .nil => []
  | .cons v rest => ',' :: (Json.stringify v ++ JsonList.stringifySep rest)

/-- Comma-separated rendering of object members (no braces). -/
def JsonObj.stringifyItems : JsonObj → List Char
  | .onil => []
  | .ocons k v rest =>
      '"' :: (escList k ++ '"' :: ':' :: (Json.stringify v ++ JsonObj.stringifySep rest))

/-- The `, "key": value` continuation of an object rendering. -/
def JsonObj.stringifySep : JsonObj → List Char
  | .onil => []
  | .ocons k v rest =>
      ',' :: '"' :: (escList k ++ '"' :: ':' :: (Json.stringify v ++ JsonObj.stringifySep rest))
end

/-- Value of a hex digit character, if it is one (JSON accepts both cases). -/
def hexVal (c : Char) : Option Nat :=
  if 48 ≤ c.toNat ∧ c.toNat ≤ 57 then some (c.toNat - 48)
  else if 97 ≤ c.toNat ∧ c.toNat ≤ 102 then some (c.toNat - 87)
  else if 65 ≤ c.toNat ∧ c.toNat ≤ 70 then some (c.toNat - 55)
  else none

def isDigitChar (c : Char) : Bool := 48 ≤ c.toNat ∧ c.toNat ≤ 57

/-- Decoding table for the single-character JSON string escapes. -/
def unescapeChar (e : Char) : Option Char :=
  if e = '"' then some '"'
  else if e = '\\' then some '\\'
  else if e = '/' then some '/'
  else if e = 'b' then some (Char.ofNat 8)
  else if e = 't' then some '\t'
  else if e = 'n' then some '\n'
  else if e = 'f' then some (Char.ofNat 12)
  else if e = 'r' then some '\r'
  else none

/-- Combine four hex digits into a code point, if all four are hex. -/
def hexQuad (h1 h2 h3 h4 : Char) : Option Nat :=
  match hexVal h1, hexVal h2, hexVal h3, hexVal h4 with
  | some a, some b, some c, some d => some (a * 4096 + b * 256 + c * 16 + d)
  | _, _, _, _ => none

/-- Parse the body of a JSON string literal (the opening quote already
consumed): handles the named escapes, \uXXXX, rejects raw control
characters, and stops at the closing quote. -/
def parseStrBody : List Char → Option (List Char × List Char)
  | [] => none
  | c :: rest =>
    if c = '"' then some ([], rest)
    else if c = '\\' then
      match rest with
      | [] => none
      | e :: r =>
        if e = 'u' then
          match r with
          | h1 :: h2 :: h3 :: h4 :: r2 =>
            match hexQuad h1 h2 h3 h4 with
            | some n => (parseStrBody r2).map (fun p => (Char.ofNat n :: p.1, p.2))
            | none => none
          | _ => none
        else
          match unescapeChar e with
          | some u => (parseStrBody r).map (fun p => (u :: p.1, p.2))
          | none => none
    else if 32 ≤ c.toNat then (parseStrBody rest).map (fun p => (c :: p.1, p.2))
    else none

/-- Greedily consume decimal digits, accumulating their value. -/
def digitsAux : List Char → Nat → Nat × List Char
  | [], acc => (acc, [])
  | c :: rest, acc =>
    if isDigitChar c then digitsAux rest (acc * 10 + (c.toNat - 48))
    else (acc, c :: rest)

/-- Parse a JSON natural-number literal: at least one digit, and a literal
starting with 0 is exactly the single digit 0 (JSON rejects leading
zeros). -/
def parseNat : List Char → Option (Nat × List Char)
  | [] => none
  | c :: rest =>
    if c = '0' then some (0, rest)
    else if isDigitChar c then some (digitsAux rest (c.toNat - 48))
    else none

/-- The tail of the `null` keyword (initial `n` consumed). -/
def nullTail : List Char → Option (Json × List Char)
  | 'u' :: 'l' :: 'l' :: r => some (.null, r)
  | _ => none

/-- The tail of the `true` keyword (initial `t` consumed). -/
def trueTail : List Char → Option (Json × List Char)
  | 'r' :: 'u' :: 'e' :: r => some (.bool true, r)
  | _ => none

/-- The tail of the `false` keyword (initial `f` consumed). -/
def falseTail : List Char → Option (Json × List Char)
  | 'a' :: 'l' :: 's' :: 'e' :: r => some (.bool false, r)
  | _ => none

/-- Array body after the opening bracket, parameterised by the sub-parsers
for one value and for the rest of the array. -/
def arrBranch (pv : List Char → Option (Json × List Char))
    (pt : List Char → Option (JsonList × List Char))
    (rest : List Char) : Option (Json × List Char) :=
  if rest.head? = some ']' then some (.arr .nil, rest.tail)
  else
    match pv rest with
    | some (v, r1) =>
      match pt r1 with
      | some (tl, r2) => some (.arr (.cons v tl), r2)
      | none => none
    | none => none

/-- One `"key": value` member, parameterised by the value sub-parser;
returns the key, the value and the remaining input. -/
def memberBranch (pv : List Char → Option (Json × List Char))
    (r : List Char) : Option (List Char × Json × List Char) :=
  match parseStrBody r with
  | some (k, r1) =>
    match r1 with
    | ':' :: r2 =>
      match pv r2 with
      | some (v, r3) => some (k, v, r3)
      | none => none
    | _ => none
  | none => none

/-- Object body after the opening brace, parameterised by the sub-parsers
for one value and for the rest of the object. -/
def objBranch (pv : List Char → Option (Json × List Char))
    (pt : List Char → Option (JsonObj × List Char))
    (rest : List Char) : Option (Json × List Char) :=
  match rest with
  | '}' :: r => some (.obj .onil, r)
  | '"' :: r =>
    match memberBranch pv r with
    | some (k, v, r3) =>
      match pt r3 with
      | some (tl, r4) => some (.obj (.ocons k v tl), r4)
      | none => none
    | none => none
  | _ => none

mutual
/-- Fuel-indexed recursive-descent parser for the JSON grammar `stringify`
emits (integer numerals, no insignificant whitespace): the restriction of
`JSON.parse` to that grammar. -/
def parseVal : Nat → List Char → Option (Json × List Char)
  | 0, _ => none
  | f + 1, input =>
    match input with
    | [] => none
    | c :: rest =>
      if c = 'n' then nullTail rest
      else if c = 't' then trueTail rest
      else if c = 'f' then falseTail rest
      else if c = '"' then (parseStrBody rest).map (fun p => (.str p.1, p.2))
      else if c = '[' then arrBranch (parseVal f) (parseArrTail f) rest
      else if c = '{' then objBranch (parseVal f) (parseObjTail f) rest
      else if c = '-' then
        (parseNat rest).map (fun p => (.num (-(p.1 : Int)), p.2))
      else if isDigitChar c then
        (parseNat (c :: rest)).map (fun p => (.num (p.1 : Int), p.2))
      else none

/-- After one array element: either `]` closes the array or `,` starts the
next element. -/
def parseArrTail : Nat → List Char → Option (JsonList × List Char)
  | 0, _ => none
  | f + 1, input =>
    match input with
    | ']' :: rest => some (.nil, rest)
    | ',' :: rest =>
      match parseVal f rest with
      | some (v, r1) =>
        match parseArrTail f r1 with
        | some (tl, r2) => some (.cons v tl, r2)
        | none => none
      | none => none
    | _ => none

/-- After one object member: either a closing brace or `, "key": value`. -/
def parseObjTail : Nat → List Char → Option (JsonObj × List Char)
  | 0, _ => none
  | f + 1, input =>
    match input with
    | '}' :: rest => some (.onil, rest)
    | ',' :: '"' :: rest =>
      match memberBranch (parseVal f) rest with
      | some (k, v, r3) =>
        match parseObjTail f r3 with
        | some (tl, r4) => some (.ocons k v tl, r4)
        | none => none
      | none => none
    | _ => none
end

/-- `JSON.parse` on the modelled grammar: parse one value and require full
consumption of the input; `none` models a thrown SyntaxError. -/
def jsonParse (s : List Char) : Option Json :=
  match parseVal (s.length + 1) s with
  | some (v, []) => some v
  | _ => none

/-- The input does not begin with a decimal digit (guard for the greedy
number parser). -/
def noDigitHead : List Char → Prop
  | [] => True
  | c :: _ => isDigitChar c = false

mutual
/-- Fuel sufficient for `parseVal` to consume this value's rendering. -/
def Json.fuelNeed : Json → Nat
  | .null => 1
  | .bool _ => 1
  | .num _ => 1
  | .str _ => 1
  | .arr .nil => 1
  | .arr (.cons v t) => 1 + max v.fuelNeed t.tailFuel
  | .obj .onil => 1
  | .obj (.ocons _ v t) => 1 + max v.fuelNeed t.tailFuel

/-- Fuel sufficient for `parseArrTail` on this tail's rendering. -/
def JsonList.tailFuel : JsonList → Nat
  | .nil => 1
  | .cons v t => 1 + max v.fuelNeed t.tailFuel

/-- Fuel sufficient for `parseObjTail` on this tail's rendering. -/
def JsonObj.tailFuel : JsonObj → Nat
  | .onil => 1
  | .ocons _ v t => 1 + max v.fuelNeed t.tailFuel
end

/-! ### Character and digit facts -/

theorem charOfNat_toNat {n : Nat} (h : n < 55296) : (Char.ofNat n).toNat = n := by
  have hv : n.isValidChar := Or.inl h
  simp [Char.ofNat, hv, Char.ofNatAux, Char.toNat, UInt32.toNat]

theorem hexVal_hexDigit {d : Nat} (h : d < 16) : hexVal (hexDigit d) = some d := by
  interval_cases d <;> decide

/-- Accumulated value of a digit run. -/
def digitStep (a : Nat) (c : Char) : Nat := a * 10 + (c.toNat - 48)

theorem natDigitsGo_acc (fuel : Nat) :
    ∀ n acc, natDigitsGo fuel n acc = natDigitsGo fuel n [] ++ acc := by
  induction fuel with
  | zero => intro n acc; simp [natDigitsGo]
  | succ fuel ih =>
    intro n acc
    by_cases h : n < 10
    · simp [natDigitsGo, h]
    · simp only [natDigitsGo, h, if_false]
      rw [ih (n / 10) (Char.ofNat (48 + n % 10) :: acc),
        ih (n / 10) [Char.ofNat (48 + n % 10)]]
      simp

theorem natDigitsGo_fuel (fuel : Nat) :
    ∀ fuel' n acc, n < fuel → n < fuel' →
      natDigitsGo fuel n acc = natDigitsGo fuel' n acc := by
  induction fuel with
  | zero => intro fuel' n acc h; omega
  | succ fuel ih =>
    intro fuel' n acc h h'
    cases fuel' with
    | zero => omega
    | succ fuel' =>
      by_cases h10 : n < 10
      · simp [natDigitsGo, h10]
      · simp only [natDigitsGo, h10, if_false]
        exact ih fuel' (n / 10) _ (by omega) (by omega)

theorem natDigits_eq (n : Nat) :
    natDigits n = if n < 10 then [Char.ofNat (48 + n)]
      else natDigits (n / 10) ++ [Char.ofNat (48 + n % 10)] := by
  by_cases h : n < 10
  · simp [natDigits, natDigitsGo, h]
  · conv_lhs => rw [natDigits, natDigitsGo]
    simp only [h, if_false]
    rw [natDigitsGo_acc n (n / 10) [Char.ofNat (48 + n % 10)],
      natDigitsGo_fuel n (n / 10 + 1) (n / 10) []
        (by omega) (by omega)]
    rfl

theorem natDigits_ne_nil (n : Nat) : natDigits n ≠ [] := by
  rw [natDigits_eq]
  by_cases h : n < 10 <;> simp [h]

theorem natDigits_digits (n : Nat) : ∀ c ∈ natDigits n, isDigitChar c = true := by
  induction n using Nat.strong_induction_on with
  | _ n ih =>
    rw [natDigits_eq]
    by_cases h : n < 10
    · simp only [h, if_true, List.mem_singleton]
      rintro c rfl
      have : (Char.ofNat (48 + n)).toNat = 48 + n := charOfNat_toNat (by omega)
      simp [isDigitChar, this]
      omega
    · simp only [h, if_false, List.mem_append, List.mem_singleton]
      rintro c (hc | rfl)
      · exact ih (n / 10) (Nat.div_lt_self (by omega) (by omega)) c hc
      · have : (Char.ofNat (48 + n % 10)).toNat = 48 + n % 10 :=
          charOfNat_toNat (by omega)
        simp [isDigitChar, this]
        omega

theorem natDigits_head_ne_zero (n : Nat) (hn : 1 ≤ n) :
    ∀ c l, natDigits n = c :: l → c ≠ '0' := by
  induction n using Nat.strong_induction_on with
  | _ n ih =>
    rw [natDigits_eq]
    by_cases h : n < 10
    · simp only [h, if_true]
      rintro c l hc
      injection hc with h1 _
      subst h1
      intro hcontra
      have hto : (Char.ofNat (48 + n)).toNat = 48 + n := charOfNat_toNat (by omega)
      rw [hcontra] at hto
      have h48 : ('0' : Char).toNat = 48 := by decide
      rw [h48] at hto
      omega
    · simp only [h, if_false]
      intro c l hc
      have hne := natDigits_ne_nil (n / 10)
      cases hd : natDigits (n / 10) with
      | nil => exact absurd hd hne
      | cons c0 l0 =>
        rw [hd] at hc
        injection hc with h1 _
        subst h1
        exact ih (n / 10) (Nat.div_lt_self (by omega) (by omega))
          (by omega) c0 l0 hd

theorem natDigits_foldl (n : Nat) :
    ∀ acc, (natDigits n).foldl digitStep acc =
      acc * 10 ^ (natDigits n).length + n := by
  induction n using Nat.strong_induction_on with
  | _ n ih =>
    intro acc
    rw [natDigits_eq]
    by_cases h : n < 10
    · simp only [h, if_true, List.foldl_cons, List.foldl_nil, List.length_cons,
        List.length_nil]
      have hto : (Char.ofNat (48 + n)).toNat = 48 + n := charOfNat_toNat (by omega)
      simp only [digitStep, hto, pow_one]
      omega
    · simp only [h, if_false, List.foldl_append, List.foldl_cons, List.foldl_nil,
        List.length_append, List.length_cons, List.length_nil]
      rw [ih (n / 10) (Nat.div_lt_self (by omega) (by omega)) acc]
      have : (Char.ofNat (48 + n % 10)).toNat = 48 + n % 10 :=
        charOfNat_toNat (by omega)
      simp [digitStep, this, Nat.pow_succ]
      have hmod : n % 10 < 10 := Nat.mod_lt _ (by omega)
      have hdm := Nat.div_add_mod n 10
      ring_nf
      omega

theorem digitsAux_eq_foldl (ds : List Char) :
    ∀ rest acc, (∀ c ∈ ds, isDigitChar c = true) → noDigitHead rest →
      digitsAux (ds ++ rest) acc = (ds.foldl digitStep acc, rest) := by
  induction ds with
  | nil =>
    intro rest acc _ hrest
    cases rest with
    | nil => simp [digitsAux]
    | cons c l =>
      simp only [List.nil_append, List.foldl_nil]
      rw [digitsAux]
      simp [noDigitHead] at hrest
      simp [hrest]
  | cons c ds ih =>
    intro rest acc hds hrest
    simp only [List.cons_append, List.foldl_cons]
    rw [digitsAux]
    have hc : isDigitChar c = true := hds c (List.mem_cons_self c ds)
    simp only [hc, if_true]
    exact ih rest _ (fun x hx => hds x (List.mem_cons_of_mem c hx)) hrest

theorem parseNat_natDigits (n : Nat) (rest : List Char) (hrest : noDigitHead rest) :
    parseNat (natDigits n ++ rest) = some (n, rest) := by
  cases hd : natDigits n with
  | nil => exact absurd hd (natDigits_ne_nil n)
  | cons c ds =>
    simp only [List.cons_append]
    rw [parseNat]
    by_cases h0 : n = 0
    · subst h0
      have : natDigits 0 = ['0'] := by decide
      rw [this] at hd
      injection hd with h1 h2
      subst h1; subst h2
      simp
    · have hcne : c ≠ '0' := natDigits_head_ne_zero n (by omega) c ds hd
      have hcd : isDigitChar c = true := natDigits_digits n c (hd ▸ List.mem_cons_self c ds)
      simp only [hcne, if_false, hcd, if_true]
      have hds : ∀ x ∈ ds, isDigitChar x = true := by
        intro x hx
        exact natDigits_digits n x (hd ▸ List.mem_cons_of_mem c hx)
      rw [digitsAux_eq_foldl ds rest _ hds hrest]
      have hfold := natDigits_foldl n 0
      rw [hd] at hfold
      simp only [List.foldl_cons] at hfold
      have : digitStep 0 c = c.toNat - 48 := by simp [digitStep]
      rw [this] at hfold
      simp at hfold
      rw [hfold]

/-! ### Reduction lemmas for the string-literal parser -/

theorem parseStrBody_quote (r : List Char) : parseStrBody ('"' :: r) = some ([], r) := by
  rw [parseStrBody.eq_def]
  simp only [reduceIte]

theorem parseStrBody_escape (e u : Char) (r : List Char) (h : unescapeChar e = some u) :
    parseStrBody ('\\' :: e :: r) = (parseStrBody r).map (fun p => (u :: p.1, p.2)) := by
  have hu : ¬ e = 'u' := by
    rintro rfl
    simp [unescapeChar] at h
  rw [parseStrBody.eq_def]
  simp only [reduceIte]
  rw [if_neg hu, h]
  rw [if_neg (show ¬ ('\\' : Char) = '"' by decide)]

theorem parseStrBody_uescape (h1 h2 h3 h4 : Char) (n : Nat) (r : List Char)
    (h : hexQuad h1 h2 h3 h4 = some n) :
    parseStrBody ('\\' :: 'u' :: h1 :: h2 :: h3 :: h4 :: r) =
      (parseStrBody r).map (fun p => (Char.ofNat n :: p.1, p.2)) := by
  rw [parseStrBody.eq_def]
  simp only [reduceIte]
  rw [h]
  rw [if_neg (show ¬ ('\\' : Char) = '"' by decide)]

theorem parseStrBody_plain (c : Char) (r : List Char)
    (hq : ¬ c = '"') (hb : ¬ c = '\\') (hc : 32 ≤ c.toNat) :
    parseStrBody (c :: r) = (parseStrBody r).map (fun p => (c :: p.1, p.2)) := by
  rw [parseStrBody.eq_def]
  simp only []
  rw [if_neg hq, if_neg hb, if_pos hc]

/-- Round trip for string bodies: parsing an escaped body recovers the
original characters and leaves the input after the closing quote. -/
theorem parseStrBody_escList (s : List Char) :
    ∀ rest, parseStrBody (escList s ++ '"' :: rest) = some (s, rest) := by
  induction s with
  | nil =>
    intro rest
    simp only [escList, List.nil_append]
    exact parseStrBody_quote rest
  | cons c cs ih =>
    intro rest
    simp only [escList, List.append_assoc]
    by_cases h1 : c = '"'
    · subst h1
      rw [(by decide : escapeChar '"' = ['\\', '"'])]
      simp only [List.cons_append, List.nil_append]
      rw [parseStrBody_escape '"' '"' _ (by decide), ih rest]
      rfl
    · by_cases h2 : c = '\\'
      · subst h2
        rw [(by decide : escapeChar '\\' = ['\\', '\\'])]
        simp only [List.cons_append, List.nil_append]
        rw [parseStrBody_escape '\\' '\\' _ (by decide), ih rest]
        rfl
      · by_cases h3 : c = Char.ofNat 8
        · subst h3
          rw [(by decide : escapeChar (Char.ofNat 8) = ['\\', 'b'])]
          simp only [List.cons_append, List.nil_append]
          rw [parseStrBody_escape 'b' (Char.ofNat 8) _ (by decide), ih rest]
          rfl
        · by_cases h4 : c = '\t'
          · subst h4
            rw [(by decide : escapeChar '\t' = ['\\', 't'])]
            simp only [List.cons_append, List.nil_append]
            rw [parseStrBody_escape 't' '\t' _ (by decide), ih rest]
            rfl
          · by_cases h5 : c = '\n'
            · subst h5
              rw [(by decide : escapeChar '\n' = ['\\', 'n'])]
              simp only [List.cons_append, List.nil_append]
              rw [parseStrBody_escape 'n' '\n' _ (by decide), ih rest]
              rfl
            · by_cases h6 : c = Char.ofNat 12
              · subst h6
                rw [(by decide : escapeChar (Char.ofNat 12) = ['\\', 'f'])]
                simp only [List.cons_append, List.nil_append]
                rw [parseStrBody_escape 'f' (Char.ofNat 12) _ (by decide), ih rest]
                rfl
              · by_cases h7 : c = '\r'
                · subst h7
                  rw [(by decide : escapeChar '\r' = ['\\', 'r'])]
                  simp only [List.cons_append, List.nil_append]
                  rw [parseStrBody_escape 'r' '\r' _ (by decide), ih rest]
                  rfl
                · by_cases h8 : c.toNat < 32
                  · have hesc : escapeChar c =
                        ['\\', 'u', '0', '0', hexDigit (c.toNat / 16),
                          hexDigit (c.toNat % 16)] := by
                      simp only [escapeChar, if_neg h1, if_neg h2, if_neg h3, if_neg h4,
                        if_neg h5, if_neg h6, if_neg h7, if_pos h8]
                    rw [hesc]
                    simp only [List.cons_append, List.nil_append]
                    have hq : hexQuad '0' '0' (hexDigit (c.toNat / 16))
                        (hexDigit (c.toNat % 16)) = some c.toNat := by
                      rw [hexQuad, hexVal_hexDigit (show c.toNat / 16 < 16 by omega),
                        hexVal_hexDigit (show c.toNat % 16 < 16 by omega),
                        (by decide : hexVal '0' = some 0)]
                      simp only []
                      congr 1
                      omega
                    rw [parseStrBody_uescape _ _ _ _ _ _ hq, ih rest]
                    simp
                  · have hesc : escapeChar c = [c] := by
                      simp only [escapeChar, if_neg h1, if_neg h2, if_neg h3, if_neg h4,
                        if_neg h5, if_neg h6, if_neg h7, if_neg h8]
                    rw [hesc]
                    simp only [List.cons_append, List.nil_append]
                    rw [parseStrBody_plain c _ h1 h2 (by omega), ih rest]
                    rfl

/-! ### Reduction lemmas for the value parser -/

theorem parseVal_cons (f : Nat) (c : Char) (rest : List Char) :
    parseVal (f + 1) (c :: rest) =
      (if c = 'n' then nullTail rest
      else if c = 't' then trueTail rest
      else if c = 'f' then falseTail rest
      else if c = '"' then (parseStrBody rest).map (fun p => (.str p.1, p.2))
      else if c = '[' then arrBranch (parseVal f) (parseArrTail f) rest
      else if c = '{' then objBranch (parseVal f) (parseObjTail f) rest
      else if c = '-' then
        (parseNat rest).map (fun p => (.num (-(p.1 : Int)), p.2))
      else if isDigitChar c then
        (parseNat (c :: rest)).map (fun p => (.num (p.1 : Int), p.2))
      else none) := by
  rw [parseVal.eq_def]

theorem parseVal_n (f : Nat) (rest : List Char) :
    parseVal (f + 1) ('n' :: rest) = nullTail rest := by
  rw [parseVal_cons, if_pos rfl]

theorem parseVal_t (f : Nat) (rest : List Char) :
    parseVal (f + 1) ('t' :: rest) = trueTail rest := by
  rw [parseVal_cons, if_neg (by decide), if_pos rfl]

theorem parseVal_f (f : Nat) (rest : List Char) :
    parseVal (f + 1) ('f' :: rest) = falseTail rest := by
  rw [parseVal_cons, if_neg (by decide), if_neg (by decide), if_pos rfl]

theorem parseVal_quote (f : Nat) (rest : List Char) :
    parseVal (f + 1) ('"' :: rest) =
      (parseStrBody rest).map (fun p => (.str p.1, p.2)) := by
  rw [parseVal_cons, if_neg (by decide), if_neg (by decide), if_neg (by decide),
    if_pos rfl]

theorem parseVal_lbrack (f : Nat) (rest : List Char) :
    parseVal (f + 1) ('[' :: rest) =
      arrBranch (parseVal f) (parseArrTail f) rest := by
  rw [parseVal_cons, if_neg (by decide), if_neg (by decide), if_neg (by decide),
    if_neg (by decide), if_pos rfl]

theorem parseVal_lbrace (f : Nat) (rest : List Char) :
    parseVal (f + 1) ('{' :: rest) =
      objBranch (parseVal f) (parseObjTail f) rest := by
  rw [parseVal_cons, if_neg (by decide), if_neg (by decide), if_neg (by decide),
    if_neg (by decide), if_neg (by decide), if_pos rfl]

theorem parseVal_minus (f : Nat) (rest : List Char) :
    parseVal (f + 1) ('-' :: rest) =
      (parseNat rest).map (fun p => (.num (-(p.1 : Int)), p.2)) := by
  rw [parseVal_cons, if_neg (by decide), if_neg (by decide), if_neg (by decide),
    if_neg (by decide), if_neg (by decide), if_neg (by decide), if_pos rfl]

theorem parseVal_digit (f : Nat) (c : Char) (rest : List Char)
    (hd : isDigitChar c = true) :
    parseVal (f + 1) (c :: rest) =
      (parseNat (c :: rest)).map (fun p => (.num (p.1 : Int), p.2)) := by
  have h1 : ¬ c = 'n' := by rintro rfl; simp [isDigitChar] at hd
  have h2 : ¬ c = 't' := by rintro rfl; simp [isDigitChar] at hd
  have h3 : ¬ c = 'f' := by rintro rfl; simp [isDigitChar] at hd
  have h4 : ¬ c = '"' := by rintro rfl; simp [isDigitChar] at hd
  have h5 : ¬ c = '[' := by rintro rfl; simp [isDigitChar] at hd
  have h6 : ¬ c = '{' := by rintro rfl; simp [isDigitChar] at hd
  have h7 : ¬ c = '-' := by rintro rfl; simp [isDigitChar] at hd
  rw [parseVal_cons, if_neg h1, if_neg h2, if_neg h3, if_neg h4, if_neg h5,
    if_neg h6, if_neg h7, if_pos hd]

theorem parseArrTail_close (f : Nat) (rest : List Char) :
    parseArrTail (f + 1) (']' :: rest) = some (.nil, rest) := by
  rw [parseArrTail.eq_def]
  simp only []

theorem parseArrTail_comma (f : Nat) (rest r1 r2 : List Char) (v : Json) (tl : JsonList)
    (hv : parseVal f rest = some (v, r1))
    (ht : parseArrTail f r1 = some (tl, r2)) :
    parseArrTail (f + 1) (',' :: rest) = some (.cons v tl, r2) := by
  rw [parseArrTail.eq_def]
  simp only []
  rw [hv]
  simp only []
  rw [ht]

theorem parseObjTail_close (f : Nat) (rest : List Char) :
    parseObjTail (f + 1) ('}' :: rest) = some (.onil, rest) := by
  rw [parseObjTail.eq_def]
  simp only []

theorem parseObjTail_comma (f : Nat) (r r3 r4 : List Char) (k : List Char)
    (v : Json) (tl : JsonObj)
    (hm : memberBranch (parseVal f) r = some (k, v, r3))
    (ht : parseObjTail f r3 = some (tl, r4)) :
    parseObjTail (f + 1) (',' :: '"' :: r) = some (.ocons k v tl, r4) := by
  rw [parseObjTail.eq_def]
  simp only []
  rw [hm]
  simp only []
  rw [ht]

theorem arrBranch_nil (pv : List Char → Option (Json × List Char))
    (pt : List Char → Option (JsonList × List Char)) (r : List Char) :
    arrBranch pv pt (']' :: r) = some (.arr .nil, r) := by
  rw [arrBranch]
  simp

theorem arrBranch_cons (pv : List Char → Option (Json × List Char))
    (pt : List Char → Option (JsonList × List Char)) (rest r1 r2 : List Char)
    (v : Json) (tl : JsonList)
    (hhd : rest.head? ≠ some ']')
    (hv : pv rest = some (v, r1))
    (ht : pt r1 = some (tl, r2)) :
    arrBranch pv pt rest = some (.arr (.cons v tl), r2) := by
  rw [arrBranch, if_neg hhd, hv]
  simp only []
  rw [ht]

theorem memberBranch_eq (pv : List Char → Option (Json × List Char))
    (r r2 r3 : List Char) (k : List Char) (v : Json)
    (hk : parseStrBody r = some (k, ':' :: r2))
    (hv : pv r2 = some (v, r3)) :
    memberBranch pv r = some (k, v, r3) := by
  rw [memberBranch, hk]
  simp only []
  rw [hv]

theorem objBranch_nil (pv : List Char → Option (Json × List Char))
    (pt : List Char → Option (JsonObj × List Char)) (r : List Char) :
    objBranch pv pt ('}' :: r) = some (.obj .onil, r) := by
  rw [objBranch.eq_def]
  simp only []

theorem objBranch_cons (pv : List Char → Option (Json × List Char))
    (pt : List Char → Option (JsonObj × List Char)) (r r3 r4 : List Char)
    (k : List Char) (v : Json) (tl : JsonObj)
    (hm : memberBranch pv r = some (k, v, r3))
    (ht : pt r3 = some (tl, r4)) :
    objBranch pv pt ('"' :: r) = some (.obj (.ocons k v tl), r4) := by
  rw [objBranch.eq_def]
  simp only []
  rw [hm]
  simp only []
  rw [ht]

/-! ### Structure of rendered values -/

theorem fuelNeed_pos (v : Json) : 1 ≤ v.fuelNeed := by
  cases v with
  | null => simp [Json.fuelNeed]
  | bool b => simp [Json.fuelNeed]
  | num n => simp [Json.fuelNeed]
  | str s => simp [Json.fuelNeed]
  | arr a => cases a <;> simp [Json.fuelNeed]
  | obj o => cases o <;> simp [Json.fuelNeed]

theorem tailFuel_pos_list (a : JsonList) : 1 ≤ a.tailFuel := by
  cases a <;> simp [JsonList.tailFuel]

theorem tailFuel_pos_obj (o : JsonObj) : 1 ≤ o.tailFuel := by
  cases o <;> simp [JsonObj.tailFuel]

/-- Every rendered value starts with one of the value-opening characters. -/
theorem stringify_head (v : Json) : ∃ c cs, v.stringify = c :: cs ∧
    (c = 'n' ∨ c = 't' ∨ c = 'f' ∨ c = '"' ∨ c = '[' ∨ c = '{' ∨ c = '-' ∨
      isDigitChar c = true) := by
  cases v with
  | null => exact ⟨'n', _, rfl, Or.inl rfl⟩
  | bool b =>
    cases b
    · exact ⟨'f', _, rfl, Or.inr (Or.inr (Or.inl rfl))⟩
    · exact ⟨'t', _, rfl, Or.inr (Or.inl rfl)⟩
  | num n =>
    show ∃ c cs, intChars n = c :: cs ∧ _
    by_cases hneg : n < 0
    · refine ⟨'-', natDigits n.natAbs, ?_, by tauto⟩
      rw [intChars, if_pos hneg]
    · cases hd : natDigits n.natAbs with
      | nil => exact absurd hd (natDigits_ne_nil _)
      | cons c ds =>
        have hcd : isDigitChar c = true :=
          natDigits_digits _ c (hd ▸ List.mem_cons_self c ds)
        refine ⟨c, ds, ?_, by tauto⟩
        rw [intChars, if_neg hneg, hd]
  | str s => exact ⟨'"', _, rfl, by tauto⟩
  | arr a => exact ⟨'[', _, rfl, by tauto⟩
  | obj o => exact ⟨'{', _, rfl, by tauto⟩

theorem stringify_head_ne_rbrack (v : Json) (x : List Char) :
    (v.stringify ++ x).head? ≠ some ']' := by
  obtain ⟨c, cs, hw, hg⟩ := stringify_head v
  rw [hw]
  simp only [List.cons_append, List.head?_cons, ne_eq, Option.some.injEq]
  rintro rfl
  rcases hg with h | h | h | h | h | h | h | h <;> exact absurd h (by decide)

theorem noDigitHead_arrSep (tl : JsonList) (rest : List Char) :
    noDigitHead (tl.stringifySep ++ ']' :: rest) := by
  cases tl with
  | nil =>
    show noDigitHead (']' :: rest)
    show isDigitChar ']' = false
    decide
  | cons w t =>
    show noDigitHead (',' :: _)
    show isDigitChar ',' = false
    decide

theorem noDigitHead_objSep (tl : JsonObj) (rest : List Char) :
    noDigitHead (tl.stringifySep ++ '}' :: rest) := by
  cases tl with
  | onil =>
    show noDigitHead ('}' :: rest)
    show isDigitChar '}' = false
    decide
  | ocons k w t =>
    show noDigitHead (',' :: _)
    show isDigitChar ',' = false
    decide

/-! ### The printer/parser round trip -/

mutual

theorem parseVal_stringify (v : Json) (f : Nat) (rest : List Char)
    (hf : v.fuelNeed ≤ f) (hrest : noDigitHead rest) :
    parseVal f (v.stringify ++ rest) = some (v, rest) := by
  obtain ⟨f', rfl⟩ : ∃ f', f = f' + 1 :=
    ⟨f - 1, by have := fuelNeed_pos v; omega⟩
  cases v with
  | null =>
    show parseVal (f' + 1) (['n', 'u', 'l', 'l'] ++ rest) = _
    simp only [List.cons_append, List.nil_append]
    rw [parseVal_n]
    rfl
  | bool b =>
    cases b
    · show parseVal (f' + 1) (['f', 'a', 'l', 's', 'e'] ++ rest) = _
      simp only [List.cons_append, List.nil_append]
      rw [parseVal_f]
      rfl
    · show parseVal (f' + 1) (['t', 'r', 'u', 'e'] ++ rest) = _
      simp only [List.cons_append, List.nil_append]
      rw [parseVal_t]
      rfl
  | num n =>
    show parseVal (f' + 1) (intChars n ++ rest) = _
    by_cases hneg : n < 0
    · rw [intChars, if_pos hneg]
      simp only [List.cons_append]
      rw [parseVal_minus, parseNat_natDigits _ _ hrest]
      simp only [Option.map_some']
      rw [show -((n.natAbs : Nat) : Int) = n by omega]
    · rw [intChars, if_neg hneg]
      cases hd : natDigits n.natAbs with
      | nil => exact absurd hd (natDigits_ne_nil _)
      | cons c ds =>
        have hcd : isDigitChar c = true :=
          natDigits_digits _ c (hd ▸ List.mem_cons_self c ds)
        simp only [List.cons_append]
        rw [parseVal_digit _ _ _ hcd,
          show c :: (ds ++ rest) = (c :: ds) ++ rest from rfl, ← hd,
          parseNat_natDigits _ _ hrest]
        simp only [Option.map_some']
        rw [show ((n.natAbs : Nat) : Int) = n by omega]
  | str s =>
    show parseVal (f' + 1) (('"' :: (escList s ++ ['"'])) ++ rest) = _
    simp only [List.cons_append, List.append_assoc, List.singleton_append]
    rw [parseVal_quote, parseStrBody_escList]
    rfl
  | arr a =>
    cases a with
    | nil =>
      show parseVal (f' + 1)
        (('[' :: (JsonList.stringifyItems .nil ++ [']'])) ++ rest) = _
      simp only [JsonList.stringifyItems, List.nil_append, List.cons_append,
        List.singleton_append]
      rw [parseVal_lbrack, arrBranch_nil]
    | cons w tl =>
      have hmax : Json.fuelNeed (.arr (.cons w tl)) =
          1 + max w.fuelNeed tl.tailFuel := by
        simp [Json.fuelNeed]
      have hml := le_max_left w.fuelNeed tl.tailFuel
      have hmr := le_max_right w.fuelNeed tl.tailFuel
      have hfw : w.fuelNeed ≤ f' := by omega
      have hft : tl.tailFuel ≤ f' := by omega
      show parseVal (f' + 1)
        (('[' :: (JsonList.stringifyItems (.cons w tl) ++ [']'])) ++ rest) = _
      simp only [JsonList.stringifyItems, List.cons_append, List.append_assoc,
        List.singleton_append]
      rw [parseVal_lbrack]
      exact arrBranch_cons _ _ _ _ _ w tl
        (stringify_head_ne_rbrack w _)
        (parseVal_stringify w f' _ hfw (noDigitHead_arrSep tl rest))
        (parseArrTail_stringify tl f' rest hft hrest)
  | obj o =>
    cases o with
    | onil =>
      show parseVal (f' + 1)
        (('{' :: (JsonObj.stringifyItems .onil ++ ['}'])) ++ rest) = _
      simp only [JsonObj.stringifyItems, List.nil_append, List.cons_append,
        List.singleton_append]
      rw [parseVal_lbrace, objBranch_nil]
    | ocons k w tl =>
      have hmax : Json.fuelNeed (.obj (.ocons k w tl)) =
          1 + max w.fuelNeed tl.tailFuel := by
        simp [Json.fuelNeed]
      have hml := le_max_left w.fuelNeed tl.tailFuel
      have hmr := le_max_right w.fuelNeed tl.tailFuel
      have hfw : w.fuelNeed ≤ f' := by omega
      have hft : tl.tailFuel ≤ f' := by omega
      show parseVal (f' + 1)
        (('{' :: (JsonObj.stringifyItems (.ocons k w tl) ++ ['}'])) ++ rest) = _
      simp only [JsonObj.stringifyItems, List.cons_append, List.append_assoc,
        List.singleton_append]
      rw [parseVal_lbrace]
      exact objBranch_cons _ _ _ _ _ k w tl
        (memberBranch_eq _ _ _ _ k w
          (parseStrBody_escList k _)
          (parseVal_stringify w f' _ hfw (noDigitHead_objSep tl rest)))
        (parseObjTail_stringify tl f' rest hft hrest)

theorem parseArrTail_stringify (a : JsonList) (f : Nat) (rest : List Char)
    (hf : a.tailFuel ≤ f) (hrest : noDigitHead rest) :
    parseArrTail f (a.stringifySep ++ ']' :: rest) = some (a, rest) := by
  obtain ⟨f', rfl⟩ : ∃ f', f = f' + 1 :=
    ⟨f - 1, by have := tailFuel_pos_list a; omega⟩
  cases a with
  | nil =>
    show parseArrTail (f' + 1) ([] ++ ']' :: rest) = _
    simp only [List.nil_append]
    exact parseArrTail_close f' rest
  | cons w tl =>
    have hmax : JsonList.tailFuel (.cons w tl) =
        1 + max w.fuelNeed tl.tailFuel := by
      simp [JsonList.tailFuel]
    have hml := le_max_left w.fuelNeed tl.tailFuel
    have hmr := le_max_right w.fuelNeed tl.tailFuel
    have hfw : w.fuelNeed ≤ f' := by omega
    have hft : tl.tailFuel ≤ f' := by omega
    show parseArrTail (f' + 1)
      ((',' :: (Json.stringify w ++ JsonList.stringifySep tl)) ++ ']' :: rest) = _
    simp only [List.cons_append, List.append_assoc]
    exact parseArrTail_comma f' _ _ _ w tl
      (parseVal_stringify w f' _ hfw (noDigitHead_arrSep tl rest))
      (parseArrTail_stringify tl f' rest hft hrest)

theorem parseObjTail_stringify (o : JsonObj) (f : Nat) (rest : List Char)
    (hf : o.tailFuel ≤ f) (hrest : noDigitHead rest) :
    parseObjTail f (o.stringifySep ++ '}' :: rest) = some (o, rest) := by
  obtain ⟨f', rfl⟩ : ∃ f', f = f' + 1 :=
    ⟨f - 1, by have := tailFuel_pos_obj o; omega⟩
  cases o with
  | onil =>
    show parseObjTail (f' + 1) ([] ++ '}' :: rest) = _
    simp only [List.nil_append]
    exact parseObjTail_close f' rest
  | ocons k w tl =>
    have hmax : JsonObj.tailFuel (.ocons k w tl) =
        1 + max w.fuelNeed tl.tailFuel := by
      simp [JsonObj.tailFuel]
    have hml := le_max_left w.fuelNeed tl.tailFuel
    have hmr := le_max_right w.fuelNeed tl.tailFuel
    have hfw : w.fuelNeed ≤ f' := by omega
    have hft : tl.tailFuel ≤ f' := by omega
    show parseObjTail (f' + 1)
      ((',' :: '"' :: (escList k ++ '"' :: ':' ::
        (Json.stringify w ++ JsonObj.stringifySep tl))) ++ '}' :: rest) = _
    simp only [List.cons_append, List.append_assoc]
    exact parseObjTail_comma f' _ _ _ k w tl
      (memberBranch_eq _ _ _ _ k w
        (parseStrBody_escList k _)
        (parseVal_stringify w f' _ hfw (noDigitHead_objSep tl rest)))
      (parseObjTail_stringify tl f' rest hft hrest)

end

/-! ### Fuel bound and the full round trip -/

mutual

theorem fuelNeed_le_len (v : Json) : v.fuelNeed ≤ v.stringify.length := by
  cases v with
  | null => simp [Json.fuelNeed, Json.stringify]
  | bool b => cases b <;> simp [Json.fuelNeed, Json.stringify]
  | num n =>
    have h : intChars n ≠ [] := by
      rw [intChars]
      by_cases hneg : n < 0
      · simp [hneg]
      · simp [hneg, natDigits_ne_nil]
    have := List.length_pos.mpr h
    simp only [Json.fuelNeed, Json.stringify]
    omega
  | str s =>
    simp [Json.fuelNeed, Json.stringify]
  | arr a =>
    cases a with
    | nil => simp [Json.fuelNeed, Json.stringify, JsonList.stringifyItems]
    | cons w tl =>
      have hw := fuelNeed_le_len w
      have ht := tailFuel_le_sepLen_list tl
      simp only [Json.fuelNeed, Json.stringify, JsonList.stringifyItems,
        List.length_cons, List.length_append]
      rcases max_choice w.fuelNeed tl.tailFuel with h | h <;> rw [h] <;> omega
  | obj o =>
    cases o with
    | onil => simp [Json.fuelNeed, Json.stringify, JsonObj.stringifyItems]
    | ocons k w tl =>
      have hw := fuelNeed_le_len w
      have ht := tailFuel_le_sepLen_obj tl
      simp only [Json.fuelNeed, Json.stringify, JsonObj.stringifyItems,
        List.length_cons, List.length_append]
      rcases max_choice w.fuelNeed tl.tailFuel with h | h <;> rw [h] <;> omega

theorem tailFuel_le_sepLen_list (a : JsonList) :
    a.tailFuel ≤ a.stringifySep.length + 1 := by
  cases a with
  | nil => simp [JsonList.tailFuel, JsonList.stringifySep]
  | cons w tl =>
    have hw := fuelNeed_le_len w
    have ht := tailFuel_le_sepLen_list tl
    simp only [JsonList.tailFuel, JsonList.stringifySep, List.length_cons,
      List.length_append]
    rcases max_choice w.fuelNeed tl.tailFuel with h | h <;> rw [h] <;> omega

theorem tailFuel_le_sepLen_obj (o : JsonObj) :
    o.tailFuel ≤ o.stringifySep.length + 1 := by
  cases o with
  | onil => simp [JsonObj.tailFuel, JsonObj.stringifySep]
  | ocons k w tl =>
    have hw := fuelNeed_le_len w
    have ht := tailFuel_le_sepLen_obj tl
    simp only [JsonObj.tailFuel, JsonObj.stringifySep, List.length_cons,
      List.length_append]
    rcases max_choice w.fuelNeed tl.tailFuel with h | h <;> rw [h] <;> omega

end

/-- `JSON.parse ∘ JSON.stringify` is the identity on the modelled value
domain. -/
theorem jsonParse_stringify (v : Json) : jsonParse v.stringify = some v := by
  have h := parseVal_stringify v (v.stringify.length + 1) []
    (by have := fuelNeed_le_len v; omega) trivial
  rw [List.append_nil] at h
  rw [jsonParse, h]

/-! ### The `useSyncedStorage` hook (src/lib/use-synced-storage.ts)

One binding's client-side state.  `localStorage` is modelled by the two
entries the hook touches: the serialized cache entry for `key` and the
`token` entry.  Remote writes performed by `saveUserData` are recorded in
`writes` in call order; real time does not appear — the debounce timer is
modelled by `pending` (the armed timer and the `resolved` value its
callback captured), and the timer elapsing is an explicit event. -/

/-- JavaScript truthiness of a `string | null` value (`!x` is true exactly
for `null` and the empty string). -/
def jsTruthy : Option String → Bool
  | none => false
  | some t => t ≠ ""

/-- Argument of `setValue`: a literal value or a functional update. -/
inductive Upd where
  | val (v : Json)
  | fn (f : Json → Json)

/-- Resolution of a `setValue` argument against the previous value
(lines 77-79: `typeof newValue === 'function' ? newValue(prev) : newValue`). -/
def Upd.resolve : Upd → Json → Json
  | .val v, _ => v
  | .fn f, prev => f prev

/-- State of one `useSyncedStorage` binding. -/
structure HookState where
  /-- the React state `value` -/
  value : Json
  /-- `localStorage.getItem(key)` (serialized value) -/
  cache : Option (List Char)
  /-- `localStorage.getItem('token')` -/
  token : Option String
  /-- `mountedRef.current` -/
  mounted : Bool
  /-- armed debounce timer: `saveTimeoutRef` plus the `resolved` value its
  callback captured, `none` when no timer is armed -/
  pending : Option Json
  /-- values sent to `saveUserData`, in call order -/
  writes : List Json
  /-- the React state `isLoading` -/
  isLoading : Bool

/-- The `useState` initializer (lines 17-30): read Local Cache; a present
non-empty entry is `JSON.parse`d (a parse failure is caught and falls back
to `initialValue`); an absent or empty entry (`if (saved)`) falls back to
`initialValue`. -/
def useSyncedStorageInit (cached : Option (List Char)) (initialValue : Json) : Json :=
  match cached with
  | none => initialValue
  | some s =>
    if s ≠ [] then
      match jsonParse s with
      | some v => v
      | none => initialValue
    else initialValue

/-- `setValueAndSync` (lines 75-106): resolve the update against the
previous value, synchronously write the serialized value to Local Cache,
clear any armed deferred write (`clearTimeout`) and arm a new timer whose
callback captures the resolved value. -/
def setValueAndSync (s : HookState) (u : Upd) : HookState :=
  let r := u.resolve s.value
  { s with value := r, cache := some r.stringify, pending := some r }

/-- The armed debounce timer elapses (callback of lines 93-102): re-read the
Session Token; if it is absent (or empty — JS truthiness) return silently
without a remote call; otherwise send the captured resolved value with
`saveUserData`.  Either way the timer is spent and never re-fires. -/
def fireStep (s : HookState) : HookState :=
  match s.pending with
  | none => s
  | some v =>
    { s with
      pending := none
      writes := (if jsTruthy s.token then s.writes ++ [v] else s.writes) }

/-- Unmount cleanup (lines 69-71 and 109-115): drop the liveness flag and
`clearTimeout` any armed deferred write. -/
def teardownStep (s : HookState) : HookState :=
  { s with mounted := false, pending := none }

/-- Events on one binding. -/
inductive HookEv where
  | set (u : Upd)
  | fire
  | teardown

def HookEv.isSet : HookEv → Bool
  | .set _ => true
  | _ => false

def hookStep (s : HookState) : HookEv → HookState
  | .set u => setValueAndSync s u
  | .fire => fireStep s
  | .teardown => teardownStep s

def runHook (s : HookState) (evs : List HookEv) : HookState :=
  evs.foldl hookStep s

/-- The mount-time remote refresh `loadFromServer` (lines 45-65).
`resp` is the outcome of `await getUserData(key)`: `.ok (some v)` a value,
`.ok none` the server's `{ value: null }`, `.error ()` any thrown failure
(caught and logged, line 58-59).  `mountedAtResp` is `mountedRef.current`
when the response arrives; the Session Token check (lines 46-50) happens
synchronously before the request, while the binding is still mounted. -/
def loadFromServer (s : HookState) (resp : Except Unit (Option Json))
    (mountedAtResp : Bool) : HookState :=
  if ¬ jsTruthy s.token then { s with isLoading := false }
  else
    let s1 :=
      match resp with
      | .ok (some v) =>
        if mountedAtResp then { s with value := v, cache := some v.stringify }
        else s
      | .ok none => s
      | .error _ => s
    if mountedAtResp then { s1 with isLoading := false } else s1

/-! ### The `/data` route handlers (src/unnamed/part_000)

The Prisma `userData` table is a list of records with a unique compound
index on `(userId, key)`; `updatedAt` is wall-clock time and outside the
embedding.  `getUserIdFromRequest` is external; its result is the
`uid : Option String` argument. -/

structure DataRec where
  id : Nat
  userId : String
  key : String
  value : List Char
  deriving DecidableEq, Repr

structure Db where
  recs : List DataRec
  nextId : Nat
  deriving DecidableEq, Repr

def recMatches (u k : String) (r : DataRec) : Bool :=
  r.userId = u ∧ r.key = k

/-- Prisma `userData.upsert` on the unique `userId_key` pair (lines 91-104
and 132-145): update the matching record's value when one exists (returning
its id), otherwise create a record with a fresh id. -/
def upsert (u k : String) (v : List Char) (db : Db) : Db × Nat :=
  match db.recs.find? (recMatches u k) with
  | some r0 =>
    ({ db with
        recs := db.recs.map fun r =>
          if recMatches u k r then { r with value := v } else r },
      r0.id)
  | none =>
    ({ recs := db.recs ++ [⟨db.nextId, u, k, v⟩], nextId := db.nextId + 1 },
      db.nextId)

/-- `typeof value === 'string' ? value : JSON.stringify(value)`
(lines 88 and 130). -/
def valueStr : Json → List Char
  | .str s => s
  | v => v.stringify

/-- The JSON bodies the handlers respond with, plus the HTTP status. -/
structure ApiResp where
  status : Nat
  /-- the body has an `error` field -/
  error : Bool
  /-- the body has `success: true` -/
  success : Bool
  id : Option Nat
  saved : Option Nat
  deriving DecidableEq, Repr

def resp401 : ApiResp := ⟨401, true, false, none, none⟩

def resp400 : ApiResp := ⟨400, true, false, none, none⟩

/-- `POST /data` (lines 73-114): 401 without a (truthy) user id, 400 when
the body has no truthy `key`, otherwise upsert `(key, valueStr value)` and
answer `{ success: true, id }`. -/
def POST (uid : Option String) (key : Option String) (value : Json)
    (db : Db) : ApiResp × Db :=
  if ¬ jsTruthy uid then (resp401, db)
  else
    match uid with
    | none => (resp401, db)
    | some u =>
      if ¬ jsTruthy key then (resp400, db)
      else
        match key with
        | none => (resp400, db)
        | some k =>
          let (db1, rid) := upsert u k (valueStr value) db
          (⟨200, false, true, some rid, none⟩, db1)

/-- The fold over `Object.entries(body)` in `PUT /data` (lines 129-147),
projected to the database (the `results` array only contributes its
length to the response). -/
def putAllDb (u : String) (entries : List (String × Json)) (db : Db) : Db :=
  entries.foldl (fun acc e => (upsert u e.1 (valueStr e.2) acc).1) db

/-- `PUT /data` (lines 117-157): 401 without a (truthy) user id, otherwise
upsert every entry of the body map and answer
`{ success: true, saved: entries.length }`. -/
def PUT (uid : Option String) (body : List (String × Json)) (db : Db) :
    ApiResp × Db :=
  if ¬ jsTruthy uid then (resp401, db)
  else
    match uid with
    | none => (resp401, db)
    | some u => (⟨200, false, true, none, some body.length⟩, putAllDb u body db)

/-- The `key`-specific branch of `GET /data` (lines 28-44): `findUnique` on
`(userId, key)`; an absent record answers `{ value: null }`; a present
record's stored string is `JSON.parse`d when possible and returned raw
otherwise. -/
def GETKey (u k : String) (db : Db) : Json :=
  match db.recs.find? (recMatches u k) with
  | none => .null
  | some r =>
    match jsonParse r.value with
    | some j => j
    | none => .str r.value

/-! ### The `useSyncedSettings` hook (lines 121-162) -/

/-- The primitive settings values (`String(x)` on floats is outside the
embedding; integers stand in for JS numbers). -/
inductive SVal where
  | b (b : Bool)
  | s (s : String)
  | num (n : Int)
  deriving DecidableEq, Repr

/-- JavaScript `String(x)` on the modelled settings values. -/
def SVal.jsString : SVal → String
  | .b true => "true"
  | .b false => "false"
  | .s t => t
  | .num n => String.mk (intChars n)

/-- The `useState` initializer of `useSyncedSettings` (lines 125-141): a
present non-empty cache entry (`if (saved)`) is returned as the boolean
`true`/`false` when it is exactly that string and as the raw string
otherwise; an absent or empty entry falls back to `initialValue`. -/
def useSyncedSettingsInit (saved : Option String) (initialValue : SVal) : SVal :=
  match saved with
  | none => initialValue
  | some s =>
    if s ≠ "" then
      if s = "true" then .b true
      else if s = "false" then .b false
      else .s s
    else initialValue

/-- What the settings write path stores in Local Cache (line 147):
`String(newValue)`. -/
def settingsStoredString (newValue : SVal) : String := newValue.jsString

/-- Store a settings value then run the initial read of a fresh binding on
the stored cache entry. -/
def settingsRoundTrip (newValue : SVal) (initialValue : SVal) : SVal :=
  useSyncedSettingsInit (some (settingsStoredString newValue)) initialValue

/-! ### Facts about integer rendering as a settings string -/

theorem intChars_head (n : Int) :
    ∃ c cs, intChars n = c :: cs ∧ (c = '-' ∨ isDigitChar c = true) := by
  by_cases hneg : n < 0
  · exact ⟨'-', natDigits n.natAbs, by rw [intChars, if_pos hneg], Or.inl rfl⟩
  · cases hd : natDigits n.natAbs with
    | nil => exact absurd hd (natDigits_ne_nil _)
    | cons c ds =>
      exact ⟨c, ds, by rw [intChars, if_neg hneg, hd],
        Or.inr (natDigits_digits _ c (hd ▸ List.mem_cons_self c ds))⟩

theorem intChars_ne_keyword (n : Int) :
    String.mk (intChars n) ≠ "" ∧ String.mk (intChars n) ≠ "true" ∧
      String.mk (intChars n) ≠ "false" := by
  obtain ⟨c, cs, hd, hg⟩ := intChars_head n
  rw [hd]
  refine ⟨by simp [String.ext_iff], ?_, ?_⟩ <;>
  · intro h
    have h2 := congrArg String.data h
    simp only [String.data] at h2
    injection h2 with h3 _
    subst h3
    rcases hg with h | h
    · exact absurd h (by decide)
    · exact absurd h (by decide)

/-! ### Claim C8 -/

/-- C8 counterexample: a stored empty string is not returned as-is — the
`if (saved)` truthiness test treats it like an absent entry, and the
initial read returns `initialValue` instead of `""`. -/
theorem useSyncedSettingsInit_empty_counterexample :
    useSyncedSettingsInit (some "") (.s "init") = .s "init" ∧
      useSyncedSettingsInit (some "") (.s "init") ≠ .s "" := by decide

/-- C8 (amended): the Settings Mirror's initial read returns `true`/`false`
as booleans when the stored string is exactly that, returns any other
non-empty stored string as-is, and falls back to `initialValue` unchanged
when the entry is absent or the stored string is empty. -/
theorem useSyncedSettingsInit_cases (saved : Option String) (i : SVal) :
    (saved = none → useSyncedSettingsInit saved i = i)
    ∧ (saved = some "true" → useSyncedSettingsInit saved i = .b true)
    ∧ (saved = some "false" → useSyncedSettingsInit saved i = .b false)
    ∧ (∀ t, saved = some t → t ≠ "" → t ≠ "true" → t ≠ "false" →
        useSyncedSettingsInit saved i = .s t)
    ∧ (saved = some "" → useSyncedSettingsInit saved i = i) := by
  refine ⟨?_, ?_, ?_, ?_, ?_⟩
  · rintro rfl; rfl
  · rintro rfl; simp [useSyncedSettingsInit]
  · rintro rfl; simp [useSyncedSettingsInit]
  · rintro t rfl h1 h2 h3
    simp [useSyncedSettingsInit, h1, h2, h3]
  · rintro rfl; simp [useSyncedSettingsInit]

/-- C8 witness: the amended cases evaluated at concrete inputs. -/
theorem useSyncedSettingsInit_cases_witness :
    useSyncedSettingsInit none (.num 7) = .num 7
    ∧ useSyncedSettingsInit (some "true") (.num 7) = .b true
    ∧ useSyncedSettingsInit (some "false") (.num 7) = .b false
    ∧ useSyncedSettingsInit (some "dark") (.num 7) = .s "dark"
    ∧ useSyncedSettingsInit (some "") (.num 7) = .num 7 :=
  ⟨(useSyncedSettingsInit_cases none (.num 7)).1 rfl,
    (useSyncedSettingsInit_cases (some "true") (.num 7)).2.1 rfl,
    (useSyncedSettingsInit_cases (some "false") (.num 7)).2.2.1 rfl,
    (useSyncedSettingsInit_cases (some "dark") (.num 7)).2.2.2.1 "dark" rfl
      (by decide) (by decide) (by decide),
    (useSyncedSettingsInit_cases (some "") (.num 7)).2.2.2.2 rfl⟩

/-! ### Claim C10 -/

/-- C10 counterexample: the string `"true"` does not survive the local
round-trip with its type intact — it is stored as `"true"` and read back as
the boolean `true`. -/
theorem settingsRoundTrip_str_true_counterexample :
    settingsRoundTrip (.s "true") (.s "init") = .b true ∧
      settingsRoundTrip (.s "true") (.s "init") ≠ .s "true" := by decide

/-- C10 (amended): the settings write path stores `String(newValue)`, so a
non-string non-boolean value (a number) reads back as the string
`String(newValue)`, not as a value equal to `newValue`; booleans survive the
round-trip, and strings survive except `"true"` and `"false"` (read back as
booleans) and `""` (read back as `initialValue`). -/
theorem settingsRoundTrip_typed (v i : SVal) :
    (∀ n, v = .num n →
      settingsRoundTrip v i = .s (String.mk (intChars n)) ∧ settingsRoundTrip v i ≠ v)
    ∧ (∀ b, v = .b b → settingsRoundTrip v i = v)
    ∧ (∀ t, v = .s t → t ≠ "" → t ≠ "true" → t ≠ "false" → settingsRoundTrip v i = v)
    ∧ (v = .s "true" → settingsRoundTrip v i = .b true)
    ∧ (v = .s "false" → settingsRoundTrip v i = .b false)
    ∧ (v = .s "" → settingsRoundTrip v i = i) := by
  refine ⟨?_, ?_, ?_, ?_, ?_, ?_⟩
  · rintro n rfl
    obtain ⟨hne, htrue, hfalse⟩ := intChars_ne_keyword n
    constructor
    · simp [settingsRoundTrip, settingsStoredString, SVal.jsString,
        useSyncedSettingsInit, hne, htrue, hfalse]
    · simp [settingsRoundTrip, settingsStoredString, SVal.jsString,
        useSyncedSettingsInit, hne, htrue, hfalse]
  · rintro b rfl
    cases b <;> simp [settingsRoundTrip, settingsStoredString, SVal.jsString,
      useSyncedSettingsInit]
  · rintro t rfl h1 h2 h3
    simp [settingsRoundTrip, settingsStoredString, SVal.jsString,
      useSyncedSettingsInit, h1, h2, h3]
  · rintro rfl
    simp [settingsRoundTrip, settingsStoredString, SVal.jsString,
      useSyncedSettingsInit]
  · rintro rfl
    simp [settingsRoundTrip, settingsStoredString, SVal.jsString,
      useSyncedSettingsInit]
  · rintro rfl
    simp [settingsRoundTrip, settingsStoredString, SVal.jsString,
      useSyncedSettingsInit]

/-- C10 witness: the amended round-trip behaviour at concrete inputs. -/
theorem settingsRoundTrip_typed_witness :
    (settingsRoundTrip (.num 42) (.s "init") = .s "42"
      ∧ settingsRoundTrip (.num 42) (.s "init") ≠ .num 42)
    ∧ settingsRoundTrip (.s "hello") (.s "init") = .s "hello"
    ∧ settingsRoundTrip (.b true) (.s "init") = .b true := by
  refine ⟨?_, ?_, ?_⟩
  · have h := (settingsRoundTrip_typed (.num 42) (.s "init")).1 42 rfl
    exact ⟨by rw [h.1]; decide, h.2⟩
  · exact (settingsRoundTrip_typed (.s "hello") (.s "init")).2.2.1 "hello" rfl
      (by decide) (by decide) (by decide)
  · exact (settingsRoundTrip_typed (.b true) (.s "init")).2.1 true rfl

/-! ### Claim C5 -/

/-- C5: `setValue(v)` writes the serialized value to Local Cache
synchronously, and a subsequent initial read of that cache entry (without a
remote mount-refresh) yields exactly `v` — the stringify/parse round trip is
the identity on the modelled JSON domain. -/
theorem setValue_localCache_roundtrip (s : HookState) (v : Json) (i : Json) :
    useSyncedStorageInit (setValueAndSync s (.val v)).cache i = v := by
  show useSyncedStorageInit (some v.stringify) i = v
  obtain ⟨c, cs, hs, _⟩ := stringify_head v
  rw [useSyncedStorageInit]
  rw [if_pos (by rw [hs]; simp), jsonParse_stringify]

/-! ### Claim C6 -/

/-- C6: an authorized `POST /data` whose body has no `key` answers 400 with
an error field and leaves the record set untouched. -/
theorem POST_missing_key (u : String) (hu : u ≠ "") (value : Json) (db : Db) :
    (POST (some u) none value db).1.status = 400
    ∧ (POST (some u) none value db).1.error = true
    ∧ (POST (some u) none value db).2 = db := by
  have ht : jsTruthy (some u) = true := by simp [jsTruthy, hu]
  rw [POST]
  simp [ht, jsTruthy, resp400, hu]

/-- C6 witness. -/
theorem POST_missing_key_witness :
    (POST (some "u1") none .null ⟨[], 0⟩).1.status = 400
    ∧ (POST (some "u1") none .null ⟨[], 0⟩).1.error = true
    ∧ (POST (some "u1") none .null ⟨[], 0⟩).2 = ⟨[], 0⟩ :=
  POST_missing_key "u1" (by decide) .null ⟨[], 0⟩

/-! ### Claim C4 -/

/-- C4: the mount-time remote refresh — with a Session Token present, a
non-null response with the binding still active replaces the value and
overwrites Local Cache; a null response or a failure leaves value and cache
untouched (the failure is swallowed); in every outcome, if the binding is
still active, `isLoading` becomes false. -/
theorem loadFromServer_cases (s : HookState) (resp : Except Unit (Option Json))
    (m : Bool) :
    (∀ v, jsTruthy s.token = true → resp = .ok (some v) → m = true →
      loadFromServer s resp m =
        { s with value := v, cache := some v.stringify, isLoading := false })
    ∧ (jsTruthy s.token = true → resp = .ok none →
        (loadFromServer s resp m).value = s.value
        ∧ (loadFromServer s resp m).cache = s.cache)
    ∧ (∀ e, jsTruthy s.token = true → resp = .error e →
        (loadFromServer s resp m).value = s.value
        ∧ (loadFromServer s resp m).cache = s.cache)
    ∧ (m = true → (loadFromServer s resp m).isLoading = false) := by
  refine ⟨?_, ?_, ?_, ?_⟩
  · rintro v ht rfl rfl
    simp [loadFromServer, ht]
  · rintro ht rfl
    cases m <;> simp [loadFromServer, ht]
  · rintro e ht rfl
    cases m <;> simp [loadFromServer, ht]
  · rintro rfl
    by_cases ht : jsTruthy s.token = true
    · rcases resp with e | ov
      · simp [loadFromServer, ht]
      · rcases ov with _ | v <;> simp [loadFromServer, ht]
    · simp at ht
      simp [loadFromServer, ht]

/-- A concrete binding state used by witnesses: token present, mounted,
no armed timer. -/
def demoState : HookState := ⟨.null, none, some "tok", true, none, [], true⟩

/-- C4 witness. -/
theorem loadFromServer_cases_witness :
    loadFromServer demoState (.ok (some (.bool true))) true =
      { demoState with
        value := .bool true
        cache := some (Json.stringify (.bool true))
        isLoading := false }
    ∧ (loadFromServer demoState (.ok none) true).value = demoState.value
    ∧ (loadFromServer demoState (.error ()) true).cache = demoState.cache
    ∧ (loadFromServer demoState (.ok none) true).isLoading = false :=
  ⟨(loadFromServer_cases demoState (.ok (some (.bool true))) true).1 (.bool true)
      (by decide) rfl rfl,
    ((loadFromServer_cases demoState (.ok none) true).2.1 (by decide) rfl).1,
    ((loadFromServer_cases demoState (.error ()) true).2.2.1 () (by decide) rfl).2,
    (loadFromServer_cases demoState (.ok none) true).2.2.2 rfl⟩

theorem hookStep_token (s : HookState) (e : HookEv) :
    (hookStep s e).token = s.token := by
  cases e with
  | set u => rfl
  | fire =>
    rw [hookStep, fireStep]
    cases s.pending <;> simp
  | teardown => rfl

theorem hookStep_writes_no_token (s : HookState) (e : HookEv)
    (h : s.token = none) : (hookStep s e).writes = s.writes := by
  cases e with
  | set u => rfl
  | fire =>
    rw [hookStep, fireStep]
    cases s.pending <;> simp [h, jsTruthy]
  | teardown => rfl

/-! ### Claim C2 -/

/-- C2: with no Session Token at any point, no event sequence on a binding
(`setValue` calls, debounce-timer firings, teardown) ever produces a remote
write; in particular a timer firing without a token silently skips the write
and leaves nothing armed for a retry. -/
theorem runHook_no_token_no_writes (s : HookState) (evs : List HookEv)
    (h : s.token = none) :
    (runHook s evs).writes = s.writes := by
  induction evs generalizing s with
  | nil => rfl
  | cons e evs ih =>
    show (runHook (hookStep s e) evs).writes = s.writes
    rw [ih (hookStep s e) (by rw [hookStep_token, h]),
      hookStep_writes_no_token s e h]

/-- A binding state with no Session Token. -/
def anonState : HookState := ⟨.null, none, none, true, none, [], false⟩

/-- C2 witness. -/
theorem runHook_no_token_no_writes_witness :
    (runHook anonState
      [.set (.val (.num 1)), .fire, .set (.val (.num 2)), .fire, .teardown]).writes
      = anonState.writes :=
  runHook_no_token_no_writes anonState _ rfl

theorem runHook_no_set_preserves (evs : List HookEv)
    (hset : ∀ e ∈ evs, e.isSet = false) :
    ∀ s : HookState, s.pending = none →
      (runHook s evs).writes = s.writes ∧ (runHook s evs).pending = none := by
  induction evs with
  | nil => exact fun s h => ⟨rfl, h⟩
  | cons e evs ih =>
    intro s h
    have he := hset e (List.mem_cons_self e evs)
    have hrest : ∀ e ∈ evs, e.isSet = false :=
      fun x hx => hset x (List.mem_cons_of_mem e hx)
    cases e with
    | set u => simp [HookEv.isSet] at he
    | fire =>
      have hfs : fireStep s = s := by rw [fireStep, h]
      show (runHook (fireStep s) evs).writes = s.writes
        ∧ (runHook (fireStep s) evs).pending = none
      rw [hfs]
      exact ih hrest s h
    | teardown =>
      show (runHook (teardownStep s) evs).writes = s.writes ∧ _
      exact ih hrest (teardownStep s) rfl

/-! ### Claim C3 -/

/-- C3: teardown of a binding with a pending debounce timer cancels the
timer, and no remote write ever occurs afterwards for the value it had
scheduled — any later sequence of non-`setValue` events leaves the write log
unchanged. -/
theorem teardown_cancels_pending (s : HookState) (v : Json)
    (hp : s.pending = some v) (evs : List HookEv)
    (hset : ∀ e ∈ evs, e.isSet = false) :
    (teardownStep s).pending = none
    ∧ (runHook (teardownStep s) evs).writes = s.writes := by
  refine ⟨rfl, ?_⟩
  exact (runHook_no_set_preserves evs hset (teardownStep s) rfl).1

/-- C3 witness. -/
theorem teardown_cancels_pending_witness :
    (teardownStep (setValueAndSync demoState (.val (.num 5)))).pending = none
    ∧ (runHook (teardownStep (setValueAndSync demoState (.val (.num 5))))
        [.fire, .fire, .teardown]).writes
      = (setValueAndSync demoState (.val (.num 5))).writes :=
  teardown_cancels_pending (setValueAndSync demoState (.val (.num 5))) (.num 5) rfl
    [.fire, .fire, .teardown] (by intro e he; fin_cases he <;> rfl)

theorem setFold_writes_token (us : List Upd) : ∀ s : HookState,
    (us.foldl setValueAndSync s).writes = s.writes
    ∧ (us.foldl setValueAndSync s).token = s.token := by
  induction us with
  | nil => exact fun s => ⟨rfl, rfl⟩
  | cons u us ih =>
    intro s
    show (us.foldl setValueAndSync (setValueAndSync s u)).writes = s.writes ∧ _
    exact ⟨(ih (setValueAndSync s u)).1, (ih (setValueAndSync s u)).2⟩

theorem fireStep_pending_some (s : HookState) (v : Json)
    (hp : s.pending = some v) (ht : jsTruthy s.token = true) :
    fireStep s = { s with
      pending := none
      writes := s.writes ++ [v] } := by
  rw [fireStep, hp]
  simp [ht]

/-! ### Claim C1 -/

/-- C1: for any non-empty run of `setValue` calls inside one debounce window
(no timer firing in between), no remote write happens during the run, each
call re-arms the timer with its resolved value so the armed timer finally
carries exactly the last resolved value, and when the window elapses (the
timer fires) with a Session Token present exactly one remote write occurs,
carrying that last resolved value. -/
theorem debounce_coalesces (s : HookState) (us : List Upd) (h : us ≠ [])
    (htok : jsTruthy s.token = true) :
    (us.foldl setValueAndSync s).writes = s.writes
    ∧ (us.foldl setValueAndSync s).value =
        (us.getLast h).resolve ((us.dropLast).foldl setValueAndSync s).value
    ∧ (us.foldl setValueAndSync s).pending =
        some ((us.foldl setValueAndSync s).value)
    ∧ fireStep (us.foldl setValueAndSync s) =
        { us.foldl setValueAndSync s with
          pending := none
          writes := s.writes ++ [(us.foldl setValueAndSync s).value] } := by
  have hsplit : us.dropLast ++ [us.getLast h] = us :=
    List.dropLast_append_getLast h
  have hfold : us.foldl setValueAndSync s =
      setValueAndSync ((us.dropLast).foldl setValueAndSync s) (us.getLast h) := by
    conv_lhs => rw [← hsplit]
    rw [List.foldl_append]
    rfl
  have hw := (setFold_writes_token us s).1
  have ht := (setFold_writes_token us s).2
  have hpend : (us.foldl setValueAndSync s).pending =
      some ((us.foldl setValueAndSync s).value) := by
    rw [hfold]; rfl
  refine ⟨hw, ?_, hpend, ?_⟩
  · rw [hfold]; rfl
  · rw [fireStep_pending_some _ _ hpend (by rw [ht]; exact htok), hw]

/-- C1 witness. -/
theorem debounce_coalesces_witness :
    ([Upd.val (.num 1), Upd.val (.num 2)] ≠ ([] : List Upd))
    ∧ jsTruthy demoState.token = true
    ∧ (([Upd.val (.num 1), Upd.val (.num 2)].foldl setValueAndSync demoState).writes
        = demoState.writes
      ∧ fireStep ([Upd.val (.num 1), Upd.val (.num 2)].foldl setValueAndSync demoState) =
        { [Upd.val (.num 1), Upd.val (.num 2)].foldl setValueAndSync demoState with
          pending := none
          writes := demoState.writes ++
            [([Upd.val (.num 1), Upd.val (.num 2)].foldl setValueAndSync demoState).value] }) := by
  have h : [Upd.val (.num 1), Upd.val (.num 2)] ≠ ([] : List Upd) := by simp
  have hd := debounce_coalesces demoState [Upd.val (.num 1), Upd.val (.num 2)] h
    (by decide)
  exact ⟨h, by decide, hd.1, hd.2.2.2⟩

/-- The database has a record for `(u, k)` and every such record (the
unique index allows at most one) holds value `v`. -/
def matchVal (u k : String) (v : List Char) (db : Db) : Prop :=
  (∃ r ∈ db.recs, recMatches u k r = true)
  ∧ ∀ r ∈ db.recs, recMatches u k r = true → r.value = v

theorem upsert_no_change (u k : String) (v : List Char) (db : Db)
    (h : matchVal u k v db) : (upsert u k v db).1 = db := by
  obtain ⟨⟨r1, hr1, hp1⟩, hall⟩ := h
  have hs : (db.recs.find? (recMatches u k)).isSome := by
    rw [List.find?_isSome]
    exact ⟨r1, hr1, hp1⟩
  obtain ⟨r0, h0⟩ := Option.isSome_iff_exists.mp hs
  rw [upsert, h0]
  have hm : db.recs.map
      (fun r => if recMatches u k r then { r with value := v } else r) = db.recs := by
    conv_rhs => rw [← List.map_id db.recs]
    apply List.map_congr_left
    intro r hr
    by_cases hmr : recMatches u k r = true
    · have hv := hall r hr hmr
      cases r
      simp_all
    · simp [hmr]
  simp only [hm]

theorem upsert_establishes (u k : String) (v : List Char) (db : Db) :
    matchVal u k v ((upsert u k v db).1) := by
  rw [upsert]
  cases h0 : db.recs.find? (recMatches u k) with
  | some r0 =>
    have hr0 : r0 ∈ db.recs := List.mem_of_find?_eq_some h0
    have hp0 : recMatches u k r0 = true := List.find?_some h0
    constructor
    · refine ⟨{ r0 with value := v }, ?_, ?_⟩
      · have := List.mem_map_of_mem
          (fun r => if recMatches u k r then { r with value := v } else r) hr0
        simpa [hp0] using this
      · cases r0
        simp_all [recMatches]
    · intro r' hr' hp'
      obtain ⟨r, hr, rfl⟩ := List.mem_map.mp hr'
      by_cases hmr : recMatches u k r = true
      · simp [hmr]
      · simp only [hmr, if_false] at hp' ⊢
        exact absurd hp' hmr
  | none =>
    have hnone := List.find?_eq_none.mp h0
    constructor
    · exact ⟨⟨db.nextId, u, k, v⟩, by simp, by simp [recMatches]⟩
    · intro r hr hp
      simp only [List.mem_append, List.mem_singleton] at hr
      rcases hr with hr | rfl
      · exact absurd hp (by simpa using hnone r hr)
      · rfl

theorem upsert_preserves (u k k' : String) (v v' : List Char) (db : Db)
    (hne : k' ≠ k) (h : matchVal u k v db) :
    matchVal u k v ((upsert u k' v' db).1) := by
  obtain ⟨⟨r1, hr1, hp1⟩, hall⟩ := h
  rw [upsert]
  cases h0 : db.recs.find? (recMatches u k') with
  | some r0 =>
    have key_of : ∀ r : DataRec, recMatches u k r = true → r.key = k := by
      intro r hm
      simp [recMatches] at hm
      exact hm.2
    have key_of' : ∀ r : DataRec, recMatches u k' r = true → r.key = k' := by
      intro r hm
      simp [recMatches] at hm
      exact hm.2
    constructor
    · refine ⟨r1, ?_, hp1⟩
      have hnot : recMatches u k' r1 = false := by
        rw [Bool.eq_false_iff]
        intro hk
        exact hne ((key_of' r1 hk).symm.trans (key_of r1 hp1))
      have := List.mem_map_of_mem
        (fun r => if recMatches u k' r then { r with value := v' } else r) hr1
      simpa [hnot] using this
    · intro r' hr' hp'
      obtain ⟨r, hr, rfl⟩ := List.mem_map.mp hr'
      by_cases hmr : recMatches u k' r = true
      · exfalso
        simp only [hmr, if_true] at hp'
        rw [show recMatches u k { r with value := v' } = recMatches u k r by
          cases r; simp [recMatches]] at hp'
        exact hne ((key_of' r hmr).symm.trans (key_of r hp'))
      · simp only [hmr, if_false] at hp' ⊢
        exact hall r hr hp'
  | none =>
    constructor
    · exact ⟨r1, by simp [hr1], hp1⟩
    · intro r hr hp
      simp only [List.mem_append, List.mem_singleton] at hr
      rcases hr with hr | rfl
      · exact hall r hr hp
      · exfalso
        simp [recMatches] at hp
        exact hne hp

theorem putAllDb_preserves (u k : String) (v : List Char)
    (entries : List (String × Json)) (hk : ∀ e ∈ entries, e.1 ≠ k) :
    ∀ db : Db, matchVal u k v db → matchVal u k v (putAllDb u entries db) := by
  induction entries with
  | nil => exact fun db h => h
  | cons e entries ih =>
    intro db h
    show matchVal u k v (putAllDb u entries (upsert u e.1 (valueStr e.2) db).1)
    exact ih (fun x hx => hk x (List.mem_cons_of_mem e hx)) _
      (upsert_preserves u k e.1 v (valueStr e.2) db
        (hk e (List.mem_cons_self e entries)) h)

theorem putAllDb_idem (u : String) (entries : List (String × Json))
    (hnd : (entries.map Prod.fst).Nodup) :
    ∀ db : Db, putAllDb u entries (putAllDb u entries db) = putAllDb u entries db := by
  induction entries with
  | nil => exact fun db => rfl
  | cons e entries ih =>
    intro db
    simp only [List.map_cons, List.nodup_cons] at hnd
    obtain ⟨hknotin, hnd'⟩ := hnd
    show putAllDb u entries
        (upsert u e.1 (valueStr e.2) (putAllDb u entries (upsert u e.1 (valueStr e.2) db).1)).1
      = putAllDb u entries (upsert u e.1 (valueStr e.2) db).1
    have hmv : matchVal u e.1 (valueStr e.2)
        (putAllDb u entries (upsert u e.1 (valueStr e.2) db).1) := by
      apply putAllDb_preserves u e.1 (valueStr e.2) entries
      · intro x hx hcontra
        exact hknotin (hcontra ▸ List.mem_map_of_mem Prod.fst hx)
      · exact upsert_establishes u e.1 (valueStr e.2) db
    rw [upsert_no_change _ _ _ _ hmv]
    exact ih hnd' _

/-! ### Claim C7 -/

/-- C7: issuing the same authorized `PUT /data` body twice produces the same
response and the same final record set as issuing it once — each entry is
upserted on the unique `(userId, key)` pair, never appended as a
duplicate. -/
theorem PUT_idempotent (u : String) (hu : u ≠ "") (body : List (String × Json))
    (db : Db) (hnd : (body.map Prod.fst).Nodup) :
    PUT (some u) body ((PUT (some u) body db).2) = PUT (some u) body db := by
  have ht : jsTruthy (some u) = true := by simp [jsTruthy, hu]
  simp only [PUT.eq_def]
  simp [ht]
  exact putAllDb_idem u body hnd db

/-- C7 witness. -/
theorem PUT_idempotent_witness :
    ("u1" ≠ "")
    ∧ ([("a", Json.num 1), ("b", Json.str ['x'])].map Prod.fst).Nodup
    ∧ PUT (some "u1") [("a", Json.num 1), ("b", Json.str ['x'])]
        ((PUT (some "u1") [("a", Json.num 1), ("b", Json.str ['x'])] ⟨[], 0⟩).2)
      = PUT (some "u1") [("a", Json.num 1), ("b", Json.str ['x'])] ⟨[], 0⟩ :=
  ⟨by decide, by decide,
    PUT_idempotent "u1" (by decide) [("a", Json.num 1), ("b", Json.str ['x'])]
      ⟨[], 0⟩ (by decide)⟩

/-! ### Parser inversion facts used by claim C9 -/

theorem nullTail_shape (l : List Char) (p : Json × List Char)
    (h : nullTail l = some p) : p.1 = Json.null := by
  rw [nullTail.eq_def] at h
  split at h
  · injection h with h'
    rw [← h']
  · cases h

theorem trueTail_shape (l : List Char) (p : Json × List Char)
    (h : trueTail l = some p) : p.1 = Json.bool true := by
  rw [trueTail.eq_def] at h
  split at h
  · injection h with h'
    rw [← h']
  · cases h

theorem falseTail_shape (l : List Char) (p : Json × List Char)
    (h : falseTail l = some p) : p.1 = Json.bool false := by
  rw [falseTail.eq_def] at h
  split at h
  · injection h with h'
    rw [← h']
  · cases h

theorem arrBranch_shape (pv : List Char → Option (Json × List Char))
    (pt : List Char → Option (JsonList × List Char)) (r : List Char)
    (p : Json × List Char) (h : arrBranch pv pt r = some p) :
    ∃ a, p.1 = Json.arr a := by
  rw [arrBranch] at h
  split at h
  · injection h with h'
    exact ⟨.nil, by rw [← h']⟩
  · split at h
    · split at h
      · injection h with h'
        exact ⟨_, by rw [← h']⟩
      · cases h
    · cases h

theorem objBranch_shape (pv : List Char → Option (Json × List Char))
    (pt : List Char → Option (JsonObj × List Char)) (r : List Char)
    (p : Json × List Char) (h : objBranch pv pt r = some p) :
    ∃ o, p.1 = Json.obj o := by
  rw [objBranch.eq_def] at h
  split at h
  · injection h with h'
    exact ⟨.onil, by rw [← h']⟩
  · split at h
    · split at h
      · injection h with h'
        exact ⟨_, by rw [← h']⟩
      · cases h
    · cases h
  · cases h

theorem parseVal_str_shape (f : Nat) (input s rest : List Char)
    (h : parseVal f input = some (.str s, rest)) :
    ∃ r, input = '"' :: r ∧ parseStrBody r = some (s, rest) := by
  cases f with
  | zero => cases h
  | succ f =>
    cases input with
    | nil =>
      rw [parseVal.eq_def] at h
      cases h
    | cons c rest0 =>
      rw [parseVal_cons] at h
      by_cases h1 : c = 'n'
      · rw [if_pos h1] at h
        have := nullTail_shape _ _ h
        cases this
      · rw [if_neg h1] at h
        by_cases h2 : c = 't'
        · rw [if_pos h2] at h
          have := trueTail_shape _ _ h
          cases this
        · rw [if_neg h2] at h
          by_cases h3 : c = 'f'
          · rw [if_pos h3] at h
            have := falseTail_shape _ _ h
            cases this
          · rw [if_neg h3] at h
            by_cases h4 : c = '"'
            · rw [if_pos h4] at h
              obtain ⟨p, hp, heq⟩ := Option.map_eq_some'.mp h
              injection heq with he1 he2
              injection he1 with he1'
              subst h4
              exact ⟨rest0, rfl, by rw [hp, ← he1', ← he2]⟩
            · rw [if_neg h4] at h
              by_cases h5 : c = '['
              · rw [if_pos h5] at h
                obtain ⟨a, ha⟩ := arrBranch_shape _ _ _ _ h
                cases ha
              · rw [if_neg h5] at h
                by_cases h6 : c = '{'
                · rw [if_pos h6] at h
                  obtain ⟨o, ho⟩ := objBranch_shape _ _ _ _ h
                  cases ho
                · rw [if_neg h6] at h
                  by_cases h7 : c = '-'
                  · rw [if_pos h7] at h
                    obtain ⟨p, _, heq⟩ := Option.map_eq_some'.mp h
                    injection heq with he1 _
                    cases he1
                  · rw [if_neg h7] at h
                    by_cases h8 : isDigitChar c = true
                    · rw [if_pos h8] at h
                      obtain ⟨p, _, heq⟩ := Option.map_eq_some'.mp h
                      injection heq with he1 _
                      cases he1
                    · rw [if_neg h8] at h
                      cases h

theorem parseStrBody_len :
    ∀ (n : Nat) (input : List Char), input.length ≤ n →
      ∀ s rest, parseStrBody input = some (s, rest) →
        s.length + rest.length < input.length := by
  intro n
  induction n with
  | zero =>
    intro input hlen s rest h
    have : input = [] := List.length_eq_zero.mp (by omega)
    subst this
    cases h
  | succ n ih =>
    intro input hlen s rest h
    cases input with
    | nil => cases h
    | cons c r0 =>
      rw [parseStrBody.eq_def] at h
      simp only [] at h
      by_cases h1 : c = '"'
      · rw [if_pos h1] at h
        injection h with h'
        injection h' with hs hr
        subst hs; subst hr
        simp
      · rw [if_neg h1] at h
        by_cases h2 : c = '\\'
        · rw [if_pos h2] at h
          cases r0 with
          | nil => cases h
          | cons e r =>
            simp only [] at h
            by_cases he : e = 'u'
            · rw [if_pos he] at h
              rcases r with _ | ⟨a1, _ | ⟨a2, _ | ⟨a3, _ | ⟨a4, r2⟩⟩⟩⟩
              · cases h
              · cases h
              · cases h
              · cases h
              · simp only [] at h
                cases hq : hexQuad a1 a2 a3 a4 with
                | none => rw [hq] at h; cases h
                | some m =>
                  rw [hq] at h
                  simp only [] at h
                  obtain ⟨p, hp, heq⟩ := Option.map_eq_some'.mp h
                  injection heq with he1 he2
                  have hlen2 : r2.length ≤ n := by
                    simp only [List.length_cons] at hlen
                    omega
                  have := ih r2 hlen2 p.1 p.2 hp
                  subst he2
                  rw [← he1]
                  simp only [List.length_cons]
                  omega
            · rw [if_neg he] at h
              cases hu : unescapeChar e with
              | none => rw [hu] at h; cases h
              | some u2 =>
                rw [hu] at h
                simp only [] at h
                obtain ⟨p, hp, heq⟩ := Option.map_eq_some'.mp h
                injection heq with he1 he2
                have hlen2 : r.length ≤ n := by
                  simp only [List.length_cons] at hlen
                  omega
                have := ih r hlen2 p.1 p.2 hp
                subst he2
                rw [← he1]
                simp only [List.length_cons]
                omega
        · rw [if_neg h2] at h
          by_cases h3 : 32 ≤ c.toNat
          · rw [if_pos h3] at h
            obtain ⟨p, hp, heq⟩ := Option.map_eq_some'.mp h
            injection heq with he1 he2
            have hlen2 : r0.length ≤ n := by
              simp only [List.length_cons] at hlen
              omega
            have := ih r0 hlen2 p.1 p.2 hp
            subst he2
            rw [← he1]
            simp only [List.length_cons]
            omega
          · rw [if_neg h3] at h
            cases h

theorem jsonParse_str_shorter (v s : List Char)
    (h : jsonParse v = some (.str s)) : s.length < v.length := by
  rw [jsonParse] at h
  cases hpv : parseVal (v.length + 1) v with
  | none => rw [hpv] at h; cases h
  | some p =>
    rw [hpv] at h
    obtain ⟨j, r⟩ := p
    cases r with
    | nil =>
      simp only [] at h
      injection h with h'
      subst h'
      obtain ⟨r0, hr0, hbody⟩ := parseVal_str_shape _ _ _ _ hpv
      have := parseStrBody_len r0.length r0 le_rfl s [] hbody
      subst hr0
      simp only [List.length_cons] at this ⊢
      omega
    | cons x xs =>
      simp only [] at h
      cases h

theorem matchVal_find (u k : String) (v : List Char) (db : Db)
    (h : matchVal u k v db) :
    ∃ r, db.recs.find? (recMatches u k) = some r ∧ r.value = v := by
  obtain ⟨⟨r1, hr1, hp1⟩, hall⟩ := h
  have hs : (db.recs.find? (recMatches u k)).isSome := by
    rw [List.find?_isSome]
    exact ⟨r1, hr1, hp1⟩
  obtain ⟨r0, h0⟩ := Option.isSome_iff_exists.mp hs
  exact ⟨r0, h0,
    hall r0 (List.mem_of_find?_eq_some h0) (List.find?_some h0)⟩

/-! ### Claim C9 -/

/-- C9: the server-side write-then-read is not the identity on strings that
are valid JSON text — `POST /data` stores a string value verbatim (no
re-serialization), and `GET /data?key=k` JSON-decodes the stored string when
possible, so a stored string that parses as JSON comes back as the decoded
value (never equal to the original string); only strings that fail to parse
are returned verbatim. -/
theorem POST_str_GET_decodes (u k : String) (hu : u ≠ "") (hk : k ≠ "")
    (v : List Char) (db : Db) :
    valueStr (.str v) = v
    ∧ (∀ j, jsonParse v = some j →
        GETKey u k ((POST (some u) (some k) (.str v) db).2) = j ∧ j ≠ .str v)
    ∧ (jsonParse v = none →
        GETKey u k ((POST (some u) (some k) (.str v) db).2) = .str v) := by
  have hdb : (POST (some u) (some k) (.str v) db).2 = (upsert u k v db).1 := by
    rw [POST]
    simp [jsTruthy, hu, hk, valueStr]
  obtain ⟨r0, hfind, hval⟩ :=
    matchVal_find u k v _ (upsert_establishes u k v db)
  have hget : GETKey u k ((POST (some u) (some k) (.str v) db).2) =
      (match jsonParse v with
        | some j => j
        | none => Json.str v) := by
    rw [hdb, GETKey, hfind]
    simp only []
    rw [hval]
  refine ⟨rfl, ?_, ?_⟩
  · intro j hj
    rw [hget, hj]
    refine ⟨rfl, ?_⟩
    intro heq
    subst heq
    have := jsonParse_str_shorter v v hj
    omega
  · intro hj
    rw [hget, hj]

/-- C9 witness. -/
theorem POST_str_GET_decodes_witness :
    (jsonParse ['1', '2', '3'] = some (.num 123)
      ∧ GETKey "u1" "k" ((POST (some "u1") (some "k")
          (.str ['1', '2', '3']) ⟨[], 0⟩).2) = .num 123
      ∧ (Json.num 123) ≠ .str ['1', '2', '3'])
    ∧ (jsonParse ['a', 'b'] = none
      ∧ GETKey "u1" "k" ((POST (some "u1") (some "k")
          (.str ['a', 'b']) ⟨[], 0⟩).2) = .str ['a', 'b']) := by
  have h1 : jsonParse ['1', '2', '3'] = some (.num 123) := by decide
  have h2 : jsonParse ['a', 'b'] = none := by decide
  have w1 := (POST_str_GET_decodes "u1" "k" (by decide) (by decide)
    ['1', '2', '3'] ⟨[], 0⟩).2.1 (.num 123) h1
  have w2 := (POST_str_GET_decodes "u1" "k" (by decide) (by decide)
    ['a', 'b'] ⟨[], 0⟩).2.2 h2
  exact ⟨⟨h1, w1.1, w1.2⟩, ⟨h2, w2⟩⟩

end CabinetOfc
